import Mathlib

/-!
Verification of the shared signal-processing engines of the Audio-Effects
repository (delay line, biquad coefficients, envelope follower, STFT
overlap-add engine, phase-vocoder helpers) against its natural-language
specification.  The C++ sources are shallowly embedded: float arithmetic is
modelled by exact arithmetic over `ℚ` or `ℝ`, C library functions
(`fmod`, `roundf`, `floorf`, `pow`) by their mathematical definitions, and
the JUCE `dsp::FFT` by the discrete Fourier transform with the inverse
normalised by `1 / N` (the JUCE convention, under which a forward/inverse
round trip is the identity).
-/

/-- Truncation toward zero, the rounding used by the C library `fmod`
family: `trunc x = ⌊x⌋` for `x ≥ 0` and `⌈x⌉` for `x < 0`. -/
def ftrunc {α : Type} [LinearOrderedField α] [FloorRing α] (x : α) : ℤ :=
  if 0 ≤ x then ⌊x⌋ else ⌈x⌉

/-- C `fmod`: `fmod x y = x - y * trunc (x / y)`; the result carries the
sign of the dividend `x`. -/
def fmod {α : Type} [LinearOrderedField α] [FloorRing α] (x y : α) : α :=
  x - y * (ftrunc (x / y) : α)

/-- C `roundf`: round half away from zero. -/
def croundf {α : Type} [LinearOrderedField α] [FloorRing α] (x : α) : ℤ :=
  if 0 ≤ x then ⌊x + 1 / 2⌋ else ⌈x - 1 / 2⌉

theorem ftrunc_of_nonneg {α : Type} [LinearOrderedField α] [FloorRing α]
    (x : α) (h : 0 ≤ x) : ftrunc x = ⌊x⌋ := if_pos h

theorem fmod_natCast {α : Type} [LinearOrderedField α] [FloorRing α]
    (a b : ℕ) (hb : 0 < b) : fmod (a : α) (b : α) = ((a % b : ℕ) : α) := by
  have hbpos : (0 : α) < (b : α) := by exact_mod_cast hb
  set q := a / b with hq
  set r := a % b with hr
  have h3 : b * q + r = a := Nat.div_add_mod a b
  have h4 : r < b := Nat.mod_lt a hb
  have hqb : q * b + r = a := by rw [mul_comm]; exact h3
  have h5 : q * b ≤ a := by omega
  have h6 : a < (q + 1) * b := by
    have h7 : a < q * b + b := by omega
    calc a < q * b + b := h7
      _ = (q + 1) * b := by ring
  have hfloor : ⌊(a : α) / (b : α)⌋ = (q : ℤ) := by
    rw [Int.floor_eq_iff, Int.cast_natCast]
    constructor
    · rw [le_div_iff₀ hbpos]
      exact_mod_cast h5
    · rw [div_lt_iff₀ hbpos]
      exact_mod_cast h6
  have htr : ftrunc ((a : α) / (b : α)) = (q : ℤ) := by
    rw [ftrunc_of_nonneg _ (by positivity), hfloor]
  rw [fmod, htr, Int.cast_natCast]
  have key : (b : α) * (q : α) + (r : α) = (a : α) := by exact_mod_cast h3
  linarith

namespace PitchShift

/-- Principal-argument wrap as implemented by
`PitchShiftAudioProcessor::princArg`: `fmod (phase + π) (2π) - π` for
`phase ≥ 0` and `fmod (phase + π) (-2π) + π` otherwise (C `fmod`
semantics, with `M_PI` modelled by the real `π`). -/
noncomputable def princArg (phase : ℝ) : ℝ :=
  if 0 ≤ phase then fmod (phase + Real.pi) (2 * Real.pi) - Real.pi
  else fmod (phase + Real.pi) (-(2 * Real.pi)) + Real.pi

/-- Pitch ratio actually applied by `PitchShiftAudioProcessor::processBlock`:
`ratio = roundf (shift * hopSize) / hopSize`. -/
noncomputable def ratio (shift : ℝ) (hopSize : ℕ) : ℝ :=
  (croundf (shift * (hopSize : ℝ)) : ℝ) / (hopSize : ℝ)

/-- Length of the resampled synthesis frame:
`resampledLength = floorf (fftSize / ratio)` cast to `int`. -/
noncomputable def resampledLength (fftSize : ℕ) (shift : ℝ) (hopSize : ℕ) : ℤ :=
  ⌊(fftSize : ℝ) / ratio shift hopSize⌋

end PitchShift

/-- C3: the code's `princArg` leaves phases in `(-π, 0)` unwrapped: at
`phase = -π/2` it returns `3π/2`, which lies outside the claimed range
`(-π, π]` (C `fmod` takes the sign of the dividend, unlike the MATLAB
`mod` the formula was copied from). -/
theorem princArg_violates_range_at_neg_half_pi :
    PitchShift.princArg (-(Real.pi / 2)) = 3 * Real.pi / 2 ∧
      ¬(3 * Real.pi / 2 ≤ Real.pi) := by
  have hpi := Real.pi_pos
  constructor
  · have hneg : ¬(0 ≤ -(Real.pi / 2)) := by push_neg; linarith
    rw [PitchShift.princArg, if_neg hneg]
    have harg : -(Real.pi / 2) + Real.pi = Real.pi / 2 := by ring
    have hdiv : Real.pi / 2 / -(2 * Real.pi) = -(1 / 4 : ℝ) := by
      field_simp
      ring
    rw [harg, fmod, hdiv]
    have : ftrunc (-(1 / 4 : ℝ)) = 0 := by
      rw [ftrunc, if_neg (by norm_num)]
      norm_num
    rw [this]
    push_cast
    ring
  · push_neg
    linarith

/-- C10 (amended): the applied pitch ratio is always an integer multiple of
`1 / hopSize`, and every shift value strictly within `1 / (2·hopSize)` of
`1.0` is applied as ratio exactly `1`, in which case the resampled frame
length equals `fftSize` (identity resampling). -/
theorem pitchRatio_quantised (fftSize hopSize : ℕ) (shift : ℝ)
    (hhop : 0 < hopSize) :
    (∃ n : ℤ, PitchShift.ratio shift hopSize = (n : ℝ) / (hopSize : ℝ)) ∧
      (|shift - 1| < 1 / (2 * (hopSize : ℝ)) →
        PitchShift.ratio shift hopSize = 1 ∧
          PitchShift.resampledLength fftSize shift hopSize = (fftSize : ℤ)) := by
  have hhr : (0 : ℝ) < (hopSize : ℝ) := by exact_mod_cast hhop
  refine ⟨⟨croundf (shift * (hopSize : ℝ)), rfl⟩, ?_⟩
  intro hnear
  have habs := abs_lt.mp hnear
  have hlow : (hopSize : ℝ) - 1 / 2 < shift * (hopSize : ℝ) := by
    have : (1 - 1 / (2 * (hopSize : ℝ))) * (hopSize : ℝ) < shift * (hopSize : ℝ) := by
      apply mul_lt_mul_of_pos_right _ hhr
      linarith [habs.1]
    calc (hopSize : ℝ) - 1 / 2 = (1 - 1 / (2 * (hopSize : ℝ))) * (hopSize : ℝ) := by
          field_simp
          ring
      _ < shift * (hopSize : ℝ) := this
  have hhigh : shift * (hopSize : ℝ) < (hopSize : ℝ) + 1 / 2 := by
    have : shift * (hopSize : ℝ) < (1 + 1 / (2 * (hopSize : ℝ))) * (hopSize : ℝ) := by
      apply mul_lt_mul_of_pos_right _ hhr
      linarith [habs.2]
    calc shift * (hopSize : ℝ) < (1 + 1 / (2 * (hopSize : ℝ))) * (hopSize : ℝ) := this
      _ = (hopSize : ℝ) + 1 / 2 := by
          field_simp
          ring
  have hpos : (0 : ℝ) ≤ shift * (hopSize : ℝ) := by
    have h1 : (1 : ℝ) ≤ (hopSize : ℝ) := by exact_mod_cast hhop
    nlinarith
  have hround : croundf (shift * (hopSize : ℝ)) = (hopSize : ℤ) := by
    rw [croundf, if_pos hpos, Int.floor_eq_iff]
    constructor
    · push_cast
      linarith
    · push_cast
      linarith
  have hratio : PitchShift.ratio shift hopSize = 1 := by
    rw [PitchShift.ratio, hround]
    push_cast
    field_simp
  refine ⟨hratio, ?_⟩
  rw [PitchShift.resampledLength, hratio, div_one, Int.floor_natCast]

/-- C10 witness: at `hopSize = 64`, `fftSize = 512`, `shift = 1`, the
hypotheses hold and the amended conclusion follows. -/
theorem pitchRatio_quantised_witness :
    0 < 64 ∧
      (|(1 : ℝ) - 1| < 1 / (2 * ((64 : ℕ) : ℝ)) →
        PitchShift.ratio 1 64 = 1 ∧
          PitchShift.resampledLength 512 1 64 = (512 : ℤ)) := by
  refine ⟨by norm_num, ?_⟩
  exact (pitchRatio_quantised 512 64 1 (by norm_num)).2

/-- C10 counterexample: at `hopSize = 64` the shift `1 + 1/128` is within
(non-strictly) `1/(2·hopSize)` of `1.0`, yet the applied ratio is
`65/64 ≠ 1`: the claim fails at the closed boundary. -/
theorem pitchRatio_boundary_not_identity :
    |(1 + 1 / 128 : ℝ) - 1| = 1 / (2 * ((64 : ℕ) : ℝ)) ∧
      PitchShift.ratio (1 + 1 / 128) 64 = 65 / 64 ∧
      (65 / 64 : ℝ) ≠ 1 := by
  refine ⟨by norm_num, ?_, by norm_num⟩
  rw [PitchShift.ratio]
  have harg : (1 + 1 / 128 : ℝ) * ((64 : ℕ) : ℝ) = 129 / 2 := by
    norm_num
  rw [harg]
  have : croundf (129 / 2 : ℝ) = 65 := by
    rw [croundf, if_pos (by norm_num)]
    norm_num
  rw [this]
  norm_num

namespace PluginParameterModel

/-- State of a JUCE `LinearSmoothedValue<FloatType>` as used by
`PluginParameter`: current value, target value, per-step increment, the
remaining countdown of smoothing steps and the configured number of steps
per ramp. -/
structure LinearSmoothedValue (α : Type) where
  currentValue : α
  targetValue : α
  step : α
  countdown : ℕ
  stepsToTarget : ℕ

/-- JUCE `setCurrentAndTargetValue`: sets both the current and the target
value at once and cancels any ramp in progress. -/
def setCurrentAndTargetValue {α : Type} (s : LinearSmoothedValue α) (v : α) :
    LinearSmoothedValue α :=
  { s with currentValue := v, targetValue := v, countdown := 0 }

/-- JUCE `getNextValue`: when no ramp is active returns the target,
otherwise advances the current value by one step. -/
def getNextValue {α : Type} [Add α] (s : LinearSmoothedValue α) :
    α × LinearSmoothedValue α :=
  if s.countdown = 0 then (s.targetValue, s)
  else
    let c := s.currentValue + s.step
    (c, { s with currentValue := c, countdown := s.countdown - 1 })

/-- JUCE `getTargetValue`: reads the target without touching the state. -/
def getTargetValue {α : Type} (s : LinearSmoothedValue α) : α := s.targetValue

/-- JUCE `isSmoothing`: a ramp is in progress. -/
def isSmoothing {α : Type} (s : LinearSmoothedValue α) : Prop := s.countdown ≠ 0

/-- Optional remapping callback of a `PluginParameter`
(`std::function<float (float)> callback`, possibly `nullptr`). -/
def applyCallback {α : Type} (callback : Option (α → α)) (v : α) : α :=
  match callback with
  | some f => f v
  | none => v

/-- `PluginParameter::updateValue` (the listener run on every parameter
change): passes the value through the callback when one is installed and
then calls `setCurrentAndTargetValue`. -/
def updateValue {α : Type} (callback : Option (α → α))
    (s : LinearSmoothedValue α) (v : α) : LinearSmoothedValue α :=
  setCurrentAndTargetValue s (applyCallback callback v)

end PluginParameterModel

/-- C7 counterexample: a parameter change does not begin a ramp.  From a
state with current value `0` (and a 5-step ramp configured),
`updateValue 1` moves the current value immediately, so "immediately after
the set, the current value is unchanged" is false. -/
theorem updateValue_changes_current_immediately :
    (PluginParameterModel.updateValue (α := ℚ) none
        ⟨0, 0, 0, 0, 5⟩ 1).currentValue ≠
      (⟨0, 0, 0, 0, 5⟩ : PluginParameterModel.LinearSmoothedValue ℚ).currentValue := by
  decide

/-- C7 (amended): a parameter change sets the current and the target value
immediately to the (optionally remapped) new value with no ramp: right
after `updateValue v` both values equal the remapped `v`, the smoothing
countdown is cleared so `getNextValue` returns that value without stepping,
and reading the target mutates nothing. -/
theorem updateValue_sets_current_and_target (callback : Option (ℚ → ℚ))
    (s : PluginParameterModel.LinearSmoothedValue ℚ) (v : ℚ) :
    (PluginParameterModel.updateValue callback s v).currentValue =
        PluginParameterModel.applyCallback callback v ∧
      (PluginParameterModel.updateValue callback s v).targetValue =
        PluginParameterModel.applyCallback callback v ∧
      (PluginParameterModel.updateValue callback s v).countdown = 0 ∧
      PluginParameterModel.getNextValue
          (PluginParameterModel.updateValue callback s v) =
        (PluginParameterModel.applyCallback callback v,
          PluginParameterModel.updateValue callback s v) ∧
      PluginParameterModel.getTargetValue
          (PluginParameterModel.updateValue callback s v) =
        PluginParameterModel.applyCallback callback v := by
  refine ⟨rfl, rfl, rfl, ?_, rfl⟩
  simp [PluginParameterModel.getNextValue, PluginParameterModel.updateValue,
    PluginParameterModel.setCurrentAndTargetValue]

namespace WahWah

/-- `WahWahAudioProcessor::calculateAttackOrRelease`: `0` for a zero time
constant, otherwise `pow (1/e) (inverseSampleRate / value)`
(`inverseE = 1/M_E`, C `pow` on reals). -/
noncomputable def calculateAttackOrRelease (inverseSampleRate value : ℝ) : ℝ :=
  if value = 0 then 0
  else Real.rpow (1 / Real.exp 1) (inverseSampleRate / value)

/-- Envelope-follower step from `WahWahAudioProcessor::processBlock`
(lines 124–132): rectify the input and one-pole blend with the attack
coefficient when the rectified input exceeds the previous envelope, with
the release coefficient otherwise. -/
noncomputable def envelopeStep (attack release envPrev input : ℝ) : ℝ :=
  let absIn := |input|
  if absIn > envPrev then attack * envPrev + (1 - attack) * absIn
  else release * envPrev + (1 - release) * absIn

end WahWah

/-- C4: the smoothing coefficient equals `exp (-1/(sampleRate·τ))` for
`τ > 0` and is exactly `0` for `τ = 0`, and the per-sample envelope update
computes `coeff·prevEnv + (1-coeff)·|input|`, choosing the attack
coefficient exactly when the rectified input exceeds the previous
envelope value. -/
theorem envelopeFollower_coefficients (sampleRate τ : ℝ)
    (hs : 0 < sampleRate) (ht : 0 < τ) :
    WahWah.calculateAttackOrRelease (1 / sampleRate) τ =
        Real.exp (-(1 / (sampleRate * τ))) ∧
      WahWah.calculateAttackOrRelease (1 / sampleRate) 0 = 0 ∧
      (∀ attack release envPrev input : ℝ,
        WahWah.envelopeStep attack release envPrev input =
          (if |input| > envPrev then attack else release) * envPrev +
            (1 - if |input| > envPrev then attack else release) * |input|) := by
  refine ⟨?_, by rw [WahWah.calculateAttackOrRelease, if_pos rfl], ?_⟩
  · have hrp : Real.rpow (1 / Real.exp 1) (1 / sampleRate / τ) =
        (1 / Real.exp 1) ^ (1 / sampleRate / τ) := rfl
    rw [WahWah.calculateAttackOrRelease, if_neg ht.ne', hrp,
      Real.rpow_def_of_pos (by positivity)]
    congr 1
    rw [Real.log_div one_ne_zero (Real.exp_ne_zero 1), Real.log_one,
      Real.log_exp]
    field_simp
  · intro attack release envPrev input
    rw [WahWah.envelopeStep]
    by_cases h : |input| > envPrev
    · simp only [if_pos h]
    · simp only [if_neg h]

/-- C4 witness: at `sampleRate = 2`, `τ = 1` the hypotheses hold and the
coefficient evaluates to `exp (-1/2)`. -/
theorem envelopeFollower_coefficients_witness :
    (0 : ℝ) < 2 ∧ (0 : ℝ) < 1 ∧
      WahWah.calculateAttackOrRelease (1 / 2) 1 = Real.exp (-(1 / ((2 : ℝ) * 1))) := by
  refine ⟨by norm_num, by norm_num, ?_⟩
  exact (envelopeFollower_coefficients 2 1 (by norm_num) (by norm_num)).1

namespace ParametricEQ

/-- Filter topologies selectable in
`ParametricEQAudioProcessor::filterTypeIndex`. -/
inductive FilterType where
  | lowPass
  | highPass
  | lowShelf
  | highShelf
  | bandPass
  | bandStop
  | peakingNotch
  deriving DecidableEq

/-- Normalisable biquad coefficient set (`IIRCoefficients` arguments
`b0 b1 b2 a0 a1 a2`). -/
structure IIRCoefficients where
  b0 : ℝ
  b1 : ℝ
  b2 : ℝ
  a0 : ℝ
  a1 : ℝ
  a2 : ℝ

/-- Bandwidth intermediate of `Filter::updateCoefficients`:
`jmin (discreteFrequency / qFactor, M_PI * 0.99)`. -/
noncomputable def bandwidth (discreteFrequency qFactor : ℝ) : ℝ :=
  min (discreteFrequency / qFactor) (Real.pi * 0.99)

/-- `ParametricEQAudioProcessor::Filter::updateCoefficients`: closed-form
bilinear-transform coefficients per filter type, sharing the intermediates
`tan (ωc/2)`, `tan (bandwidth/2)`, `-2 cos ωc` and `sqrt gain`. -/
noncomputable def updateCoefficients (discreteFrequency qFactor gain : ℝ)
    (filterType : FilterType) : IIRCoefficients :=
  let bw := bandwidth discreteFrequency qFactor
  let two_cos_wc := -2 * Real.cos discreteFrequency
  let tan_half_bw := Real.tan (bw / 2)
  let tan_half_wc := Real.tan (discreteFrequency / 2)
  let sqrt_gain := Real.sqrt gain
  match filterType with
  | FilterType.lowPass =>
      ⟨tan_half_wc, tan_half_wc, 0, tan_half_wc + 1, tan_half_wc - 1, 0⟩
  | FilterType.highPass =>
      ⟨1, -1, 0, tan_half_wc + 1, tan_half_wc - 1, 0⟩
  | FilterType.lowShelf =>
      ⟨gain * tan_half_wc + sqrt_gain, gain * tan_half_wc - sqrt_gain, 0,
        tan_half_wc + sqrt_gain, tan_half_wc - sqrt_gain, 0⟩
  | FilterType.highShelf =>
      ⟨sqrt_gain * tan_half_wc + gain, sqrt_gain * tan_half_wc - gain, 0,
        sqrt_gain * tan_half_wc + 1, sqrt_gain * tan_half_wc - 1, 0⟩
  | FilterType.bandPass =>
      ⟨tan_half_bw, 0, -tan_half_bw, 1 + tan_half_bw, two_cos_wc,
        1 - tan_half_bw⟩
  | FilterType.bandStop =>
      ⟨1, two_cos_wc, 1, 1 + tan_half_bw, two_cos_wc, 1 - tan_half_bw⟩
  | FilterType.peakingNotch =>
      ⟨sqrt_gain + gain * tan_half_bw, sqrt_gain * two_cos_wc,
        sqrt_gain - gain * tan_half_bw, sqrt_gain + tan_half_bw,
        sqrt_gain * two_cos_wc, sqrt_gain - tan_half_bw⟩

end ParametricEQ

/-- C6: for positive frequency and Q the bandwidth argument fed into
`tan (bandwidth / 2)` equals `min (ωc/Q) (0.99·π)`, and the halved
bandwidth stays strictly inside `(0, π/2)`, so the tangent is never taken
at its pole (its cosine stays nonzero). -/
theorem bandwidth_clamped_below_pole (discreteFrequency qFactor : ℝ)
    (hf : 0 < discreteFrequency) (hq : 0 < qFactor) :
    ParametricEQ.bandwidth discreteFrequency qFactor =
        min (discreteFrequency / qFactor) (0.99 * Real.pi) ∧
      0 < ParametricEQ.bandwidth discreteFrequency qFactor / 2 ∧
      ParametricEQ.bandwidth discreteFrequency qFactor / 2 < Real.pi / 2 ∧
      Real.cos (ParametricEQ.bandwidth discreteFrequency qFactor / 2) ≠ 0 := by
  have hpi := Real.pi_pos
  have hmin : ParametricEQ.bandwidth discreteFrequency qFactor ≤ Real.pi * 0.99 :=
    min_le_right _ _
  have hpos : 0 < ParametricEQ.bandwidth discreteFrequency qFactor :=
    lt_min (by positivity) (by positivity)
  have hlt : ParametricEQ.bandwidth discreteFrequency qFactor / 2 < Real.pi / 2 := by
    nlinarith
  refine ⟨by rw [ParametricEQ.bandwidth, mul_comm], by positivity, hlt, ?_⟩
  have hcos : 0 < Real.cos (ParametricEQ.bandwidth discreteFrequency qFactor / 2) := by
    apply Real.cos_pos_of_mem_Ioo
    constructor
    · linarith
    · exact hlt
  exact hcos.ne'

/-- C6 witness: at `ωc = 1`, `Q = 1` the hypotheses hold and the clamped
bandwidth equals `min 1 (0.99·π)` with its half inside `(0, π/2)`. -/
theorem bandwidth_clamped_below_pole_witness :
    (0 : ℝ) < 1 ∧
      ParametricEQ.bandwidth 1 1 = min ((1 : ℝ) / 1) (0.99 * Real.pi) ∧
      Real.cos (ParametricEQ.bandwidth 1 1 / 2) ≠ 0 := by
  have h := bandwidth_clamped_below_pole 1 1 (by norm_num) (by norm_num)
  exact ⟨by norm_num, h.1, h.2.2.2⟩

/-- Wrapping increment `if (++pos >= len) pos -= len` (equivalently
`pos = 0`), as used by every circular buffer in the repository, agrees
with `mod` when the position is already reduced. -/
theorem wrapIncrement_eq_mod (M L p : ℕ) (hM : 0 < M) (hp : p = L % M) :
    (if M ≤ p + 1 then p + 1 - M else p + 1) = (L + 1) % M := by
  have hmod : (L + 1) % M = (L % M + 1) % M := by
    conv_lhs => rw [← Nat.mod_add_mod]
  have hlt : L % M < M := Nat.mod_lt _ hM
  subst hp
  by_cases h : L % M + 1 = M
  · rw [if_pos (le_of_eq h.symm), hmod, h, Nat.sub_self, Nat.mod_self]
  · have hlt2 : L % M + 1 < M := lt_of_le_of_ne hlt h
    rw [if_neg (not_le.mpr hlt2), hmod, Nat.mod_eq_of_lt hlt2]

/-- Adding a nonzero offset smaller than the modulus moves to a different
residue class. -/
theorem add_mod_ne_mod (L c M : ℕ) (hc0 : 0 < c) (hcM : c < M) :
    (L + c) % M ≠ L % M := by
  intro h
  have hmodeq : L + c ≡ L + 0 [MOD M] := by
    simpa [Nat.ModEq] using h
  have hzero : c ≡ 0 [MOD M] := Nat.ModEq.add_left_cancel' L hmodeq
  have hdvd : M ∣ c := (Nat.modEq_zero_iff_dvd).mp hzero
  exact absurd (Nat.le_of_dvd hc0 hdvd) (not_le.mpr hcM)

namespace PingPongDelay

/-- Circular delay-line state from
`PingPongDelayAudioProcessor::processBlock`: per-channel sample buffer and
the shared write cursor. -/
structure DelayLineState where
  buffer : ℕ → ℚ
  writePosition : ℕ

/-- Fresh delay line: buffer cleared, write cursor at zero. -/
def initDelayLine : DelayLineState := ⟨fun _ => 0, 0⟩

/-- One write step: `delayData[localWritePosition] = v;` followed by
`if (++localWritePosition >= delayBufferSamples) localWritePosition -=
delayBufferSamples;`. -/
def writeSample (M : ℕ) (s : DelayLineState) (v : ℚ) : DelayLineState :=
  ⟨Function.update s.buffer s.writePosition v,
    if M ≤ s.writePosition + 1 then s.writePosition + 1 - M
    else s.writePosition + 1⟩

/-- State after feeding the first `n` samples of `x` into a fresh delay
line of `M` samples. -/
def writeSequence (M : ℕ) (x : ℕ → ℚ) : ℕ → DelayLineState
  | 0 => initDelayLine
  | n + 1 => writeSample M (writeSequence M x n) (x n)

/-- Linear-interpolation read of `processBlock`:
`readPosition = fmodf (writePos - delaySamples + bufferSamples,
bufferSamples)`; interpolate between `floor` and `floor + 1` unless the
integer read position collides with the write position (in which case the
output stays `0`). -/
def readSampleLinear (M : ℕ) (s : DelayLineState) (delaySamples : ℚ) : ℚ :=
  let readPosition :=
    fmod ((s.writePosition : ℚ) - delaySamples + (M : ℚ)) (M : ℚ)
  let localReadPosition : ℤ := ⌊readPosition⌋
  if localReadPosition ≠ (s.writePosition : ℤ) then
    let fraction := readPosition - (localReadPosition : ℚ)
    let delayed1 := s.buffer localReadPosition.toNat
    let delayed2 := s.buffer ((localReadPosition.toNat + 1) % M)
    delayed1 + fraction * (delayed2 - delayed1)
  else 0

theorem writeSequence_writePosition (M : ℕ) (x : ℕ → ℚ) (hM : 0 < M) :
    ∀ L, (writeSequence M x L).writePosition = L % M := by
  intro L
  induction L with
  | zero => simp [writeSequence, initDelayLine]
  | succ n ih =>
      rw [writeSequence, writeSample]
      exact wrapIncrement_eq_mod M n _ hM ih

theorem writeSequence_buffer (M : ℕ) (x : ℕ → ℚ) (hM : 0 < M) :
    ∀ L, ∀ i, i < M →
      (writeSequence M x L).buffer ((L + i) % M) =
        if L + i < M then 0 else x (L + i - M) := by
  intro L
  induction L with
  | zero =>
      intro i hi
      simp [writeSequence, initDelayLine, if_pos hi]
  | succ n ih =>
      intro i hi
      have hbufeq : (writeSequence M x (n + 1)).buffer =
          Function.update (writeSequence M x n).buffer (n % M) (x n) := by
        rw [writeSequence, writeSample, writeSequence_writePosition M x hM n]
      rw [hbufeq]
      by_cases hlast : i = M - 1
      · have hslot : (n + 1 + i) % M = n % M := by
          have : n + 1 + i = n + M := by omega
          rw [this, Nat.add_mod_right]
        rw [hslot, Function.update_same]
        have hge : ¬(n + 1 + i < M) := by omega
        rw [if_neg hge]
        congr 1
        omega
      · have hne : (n + 1 + i) % M ≠ n % M := by
          have h1 : n + 1 + i = n + (i + 1) := by omega
          rw [h1]
          exact add_mod_ne_mod n (i + 1) M (by omega) (by omega)
        rw [Function.update_noteq hne]
        have h2 : n + 1 + i = n + (i + 1) := by omega
        rw [h2]
        exact ih (i + 1) (by omega)

end PingPongDelay

/-- C2: a linear-interpolation read at an integer delay `d` (with
`1 ≤ d < bufferSamples` and at least `d` samples written) returns exactly
the sample written `d` steps earlier. -/
theorem readSampleLinear_integer_delay (M L d : ℕ) (x : ℕ → ℚ)
    (hd1 : 1 ≤ d) (hdM : d < M) (hdL : d ≤ L) :
    PingPongDelay.readSampleLinear M (PingPongDelay.writeSequence M x L)
        (d : ℚ) = x (L - d) := by
  have hM : 0 < M := lt_trans (by omega) hdM
  have hwp := PingPongDelay.writeSequence_writePosition M x hM L
  rw [PingPongDelay.readSampleLinear, hwp]
  have harg : ((L % M : ℕ) : ℚ) - (d : ℚ) + (M : ℚ) =
      ((L % M + M - d : ℕ) : ℚ) := by
    have hge : d ≤ L % M + M := by omega
    push_cast [Nat.cast_sub hge]
    ring
  rw [harg, fmod_natCast _ _ hM]
  set rp := (L % M + M - d) % M with hrp
  have hfl : ⌊((rp : ℕ) : ℚ)⌋ = (rp : ℤ) := Int.floor_natCast rp
  rw [hfl]
  have hrp2 : rp = (L + (M - d)) % M := by
    rw [hrp]
    have h1 : L % M + M - d = L % M + (M - d) := by omega
    rw [h1, Nat.mod_add_mod]
  have hguard : (rp : ℤ) ≠ ((L % M : ℕ) : ℤ) := by
    rw [hrp2]
    intro hcontra
    exact add_mod_ne_mod L (M - d) M (by omega) (by omega)
      (by exact_mod_cast hcontra)
  rw [if_pos hguard]
  have hfrac : ((rp : ℕ) : ℚ) - (((rp : ℤ) : ℚ)) = 0 := by
    push_cast
    ring
  have htn : ((rp : ℤ)).toNat = rp := Int.toNat_natCast rp
  rw [hfrac, htn]
  have hbuf := PingPongDelay.writeSequence_buffer M x hM L (M - d)
    (by omega)
  rw [← hrp2] at hbuf
  have hcond : ¬(L + (M - d) < M) := by omega
  rw [hbuf, if_neg hcond]
  have : L + (M - d) - M = L - d := by omega
  rw [this]
  ring

/-- C2 witness (the spec scenario): buffer of 100 samples, values
`1..100` written at positions `0..99` (write cursor wrapped back to `0`),
then `readSample (5.0, linear)` returns the value stored at position 95,
namely `96`, exactly. -/
theorem readSampleLinear_integer_delay_witness :
    (1 ≤ 5 ∧ 5 < 100 ∧ 5 ≤ 100) ∧
      PingPongDelay.readSampleLinear 100
          (PingPongDelay.writeSequence 100 (fun i => (i : ℚ) + 1) 100)
          ((5 : ℕ) : ℚ) = 96 := by
  refine ⟨⟨by norm_num, by norm_num, by norm_num⟩, ?_⟩
  rw [readSampleLinear_integer_delay 100 100 5 (fun i => (i : ℚ) + 1)
    (by norm_num) (by norm_num) (by norm_num)]
  norm_num

namespace Vibrato

/-- Cubic (4-point Hermite/Catmull-like) interpolation from
`VibratoAudioProcessor::processBlock` (interpolationCubic case): samples at
`floor-1 .. floor+2` (wrapped into the buffer), blended by the cubic
`a0·f³ + a1·f² + a2·f + a3` in the fractional offset `f`. -/
def readSampleCubic (M : ℕ) (buf : ℕ → ℚ) (readPosition : ℚ) : ℚ :=
  let localReadPosition : ℤ := ⌊readPosition⌋
  let fraction := readPosition - (localReadPosition : ℚ)
  let fractionSqrt := fraction * fraction
  let fractionCube := fractionSqrt * fraction
  let sample0 := buf (((localReadPosition - 1 + (M : ℤ)) % (M : ℤ)).toNat)
  let sample1 := buf localReadPosition.toNat
  let sample2 := buf (((localReadPosition + 1) % (M : ℤ)).toNat)
  let sample3 := buf (((localReadPosition + 2) % (M : ℤ)).toNat)
  let a0 := -(1 / 2 : ℚ) * sample0 + (3 / 2) * sample1 - (3 / 2) * sample2 +
    (1 / 2) * sample3
  let a1 := sample0 - (5 / 2) * sample1 + 2 * sample2 - (1 / 2) * sample3
  let a2 := -(1 / 2 : ℚ) * sample0 + (1 / 2) * sample2
  let a3 := sample1
  a0 * fractionCube + a1 * fractionSqrt + a2 * fraction + a3

end Vibrato

/-- C8: on a buffer sampling the quadratic `p ↦ A·p² + B·p + C` at integer
positions, a cubic-interpolation read at any fractional position whose
four-sample neighbourhood `floor-1 .. floor+2` lies inside the buffer
returns exactly the quadratic's value at that position. -/
theorem readSampleCubic_exact_on_quadratic (M : ℕ) (A B C : ℚ)
    (buf : ℕ → ℚ) (r : ℚ)
    (hbuf : ∀ p : ℕ, p < M → buf p = A * (p : ℚ) ^ 2 + B * (p : ℚ) + C)
    (h1 : 1 ≤ ⌊r⌋) (h2 : ⌊r⌋ + 2 < (M : ℤ)) :
    Vibrato.readSampleCubic M buf r = A * r ^ 2 + B * r + C := by
  set l : ℤ := ⌊r⌋ with hl
  have hM : (0 : ℤ) < (M : ℤ) := by omega
  have hidx : ∀ k : ℤ, 0 ≤ l + k → l + k < (M : ℤ) →
      buf ((l + k).toNat) =
        A * ((l : ℚ) + (k : ℚ)) ^ 2 + B * ((l : ℚ) + (k : ℚ)) + C := by
    intro k hk0 hkM
    have hnat : ((l + k).toNat : ℤ) = l + k := Int.toNat_of_nonneg hk0
    have hlt : (l + k).toNat < M := by omega
    rw [hbuf _ hlt]
    have hcast : (((l + k).toNat : ℕ) : ℚ) = (l : ℚ) + (k : ℚ) := by
      have := congrArg (fun z : ℤ => (z : ℚ)) hnat
      push_cast at this
      linarith
    rw [hcast]
  have hmod : ∀ k : ℤ, 0 ≤ l + k → l + k < (M : ℤ) →
      (l + k) % (M : ℤ) = l + k := fun k hk0 hkM => Int.emod_eq_of_lt hk0 hkM
  rw [Vibrato.readSampleCubic]
  have e0 : (l - 1 + (M : ℤ)) % (M : ℤ) = l + (-1) := by
    have h3 : l - 1 + (M : ℤ) = (l + (-1)) + (M : ℤ) := by ring
    rw [h3]
    have h4 : ((l + (-1)) + (M : ℤ)) % (M : ℤ) = (l + (-1)) % (M : ℤ) := by
      simp [Int.add_mul_emod_self_left]
    rw [h4]
    exact hmod (-1) (by omega) (by omega)
  have e2 : (l + 1) % (M : ℤ) = l + 1 := hmod 1 (by omega) (by omega)
  have e3 : (l + 2) % (M : ℤ) = l + 2 := hmod 2 (by omega) (by omega)
  have s0 := hidx (-1) (by omega) (by omega)
  have s1 := hidx 0 (by omega) (by omega)
  have s2 := hidx 1 (by omega) (by omega)
  have s3 := hidx 2 (by omega) (by omega)
  rw [e0, e2, e3]
  have hl0 : l + 0 = l := by ring
  rw [hl0] at s1
  rw [s0, s1, s2, s3]
  push_cast
  ring

/-- C8 witness: buffer of 10 samples holding `p ↦ p²`, read at `3/2`:
the cubic interpolation returns `(3/2)² = 9/4` exactly. -/
theorem readSampleCubic_exact_on_quadratic_witness :
    ((∀ p : ℕ, p < 10 → ((p : ℚ) ^ 2 : ℚ) = 1 * (p : ℚ) ^ 2 + 0 * (p : ℚ) + 0) ∧
        1 ≤ ⌊(3 / 2 : ℚ)⌋ ∧ ⌊(3 / 2 : ℚ)⌋ + 2 < (10 : ℤ)) ∧
      Vibrato.readSampleCubic 10 (fun p => (p : ℚ) ^ 2) (3 / 2) =
        1 * (3 / 2 : ℚ) ^ 2 + 0 * (3 / 2 : ℚ) + 0 := by
  have hfl : ⌊(3 / 2 : ℚ)⌋ = 1 := by norm_num
  refine ⟨⟨fun p _ => by ring, by rw [hfl], by rw [hfl]; norm_num⟩, ?_⟩
  exact readSampleCubic_exact_on_quadratic 10 1 0 0 (fun p => (p : ℚ) ^ 2)
    (3 / 2) (fun p _ => by ring) (by rw [hfl]) (by rw [hfl]; norm_num)

namespace STFT

/-- Window shapes selectable in `STFT::windowTypeIndex`. -/
inductive WindowType where
  | rectangular
  | bartlett
  | hann
  | hamming
  deriving DecidableEq

/-- Window table filled by `STFT::updateWindow`: the four shapes evaluated
at `sample = 0 .. fftSize-1` over the denominator `fftSize - 1`; entries
past the table keep the cleared value `0`. -/
noncomputable def windowTable (wt : WindowType) (fftSize : ℕ) : ℕ → ℝ :=
  fun s =>
    if s < fftSize then
      match wt with
      | WindowType.rectangular => 1
      | WindowType.bartlett =>
          1 - |2 * (s : ℝ) / ((fftSize : ℝ) - 1) - 1|
      | WindowType.hann =>
          0.5 - 0.5 * Real.cos (2 * Real.pi * (s : ℝ) / ((fftSize : ℝ) - 1))
      | WindowType.hamming =>
          0.54 - 0.46 * Real.cos (2 * Real.pi * (s : ℝ) / ((fftSize : ℝ) - 1))
    else 0

/-- Sum of the window table over the frame, as accumulated by
`updateWindow`. -/
noncomputable def windowSum (fftSize : ℕ) (w : ℕ → ℝ) : ℝ :=
  ∑ s ∈ Finset.range fftSize, w s

/-- Scale factor computed at the end of `updateWindow`: zero-initialised
and only overwritten by `1/overlap/windowSum*fftSize` when both `overlap`
and the window sum are nonzero. -/
noncomputable def windowScaleFactorOf (overlap fftSize : ℕ) (w : ℕ → ℝ) : ℝ :=
  if overlap ≠ 0 ∧ windowSum fftSize w ≠ 0 then
    1 / (overlap : ℝ) / windowSum fftSize w * (fftSize : ℝ)
  else 0

/-- Engine configuration fields touched by `updateHopSize` and
`updateWindow` (`outputBufferLength = fftSize`). -/
structure Config where
  fftSize : ℕ
  overlap : ℕ
  hopSize : ℕ
  outputBufferWritePosition : ℕ
  windowScaleFactor : ℝ
  fftWindow : ℕ → ℝ

/-- `STFT::updateHopSize`: store the new overlap; only when it is nonzero
recompute `hopSize = fftSize / overlap` and reset the output write cursor
to `hopSize % outputBufferLength`. -/
def updateHopSize (c : Config) (newOverlap : ℕ) : Config :=
  let c1 := { c with overlap := newOverlap }
  if newOverlap ≠ 0 then
    { c1 with
      hopSize := c.fftSize / newOverlap,
      outputBufferWritePosition := c.fftSize / newOverlap % c.fftSize }
  else c1

/-- `STFT::updateWindow`: refill the window table for the selected type and
recompute the scale factor (which starts from `0`). -/
noncomputable def updateWindow (c : Config) (wt : WindowType) : Config :=
  { c with
    fftWindow := windowTable wt c.fftSize,
    windowScaleFactor :=
      windowScaleFactorOf c.overlap c.fftSize (windowTable wt c.fftSize) }

end STFT

/-- C5 (amended): reconfiguring with `overlap = 0` skips the hop-size
computation (leaving the prior `hopSize` and output write cursor, so no
division by zero happens), but the subsequent window update resets
`windowScaleFactor` to `0` rather than leaving its prior value. -/
theorem updateHopSize_zero_overlap_guard (c : STFT.Config)
    (wt : STFT.WindowType) :
    (STFT.updateHopSize c 0).hopSize = c.hopSize ∧
      (STFT.updateHopSize c 0).outputBufferWritePosition =
        c.outputBufferWritePosition ∧
      (STFT.updateHopSize c 0).overlap = 0 ∧
      (STFT.updateWindow (STFT.updateHopSize c 0) wt).windowScaleFactor = 0 := by
  have hhop : STFT.updateHopSize c 0 = { c with overlap := 0 } := by
    simp [STFT.updateHopSize]
  rw [hhop]
  refine ⟨rfl, rfl, rfl, ?_⟩
  rw [STFT.updateWindow]
  rw [STFT.windowScaleFactorOf, if_neg]
  intro hcontra
  exact hcontra.1 rfl

/-- C5 counterexample: from a configuration with `windowScaleFactor = 1/2`
(e.g. `fftSize = 4`, `overlap = 2`, rectangular window), reconfiguring
with `overlap = 0` leaves `windowScaleFactor = 0`, not the prior `1/2`:
the scale factor is not "left in effect". -/
theorem updateWindow_zero_overlap_resets_scale :
    (STFT.updateWindow
        (STFT.updateHopSize ⟨4, 2, 2, 2, 1 / 2, fun _ => 1⟩ 0)
        STFT.WindowType.rectangular).windowScaleFactor ≠
      (⟨4, 2, 2, 2, 1 / 2, fun _ => 1⟩ : STFT.Config).windowScaleFactor := by
  have hhop : STFT.updateHopSize ⟨4, 2, 2, 2, 1 / 2, fun _ => 1⟩ 0 =
      ({ fftSize := 4, overlap := 0, hopSize := 2,
         outputBufferWritePosition := 2, windowScaleFactor := 1 / 2,
         fftWindow := fun _ => 1 } : STFT.Config) := by
    simp [STFT.updateHopSize]
  have h : (STFT.updateWindow
      (STFT.updateHopSize ⟨4, 2, 2, 2, 1 / 2, fun _ => 1⟩ 0)
      STFT.WindowType.rectangular).windowScaleFactor = 0 := by
    rw [hhop, STFT.updateWindow]
    rw [STFT.windowScaleFactorOf, if_neg]
    intro hcontra
    exact hcontra.1 rfl
  rw [h]
  norm_num

namespace CompressorExpander

/-- `CompressorExpanderAudioProcessor::calculateAttackOrRelease`:
identical to the wah-wah version (`pow (1/e) (inverseSampleRate/value)`,
instantaneous `0` when the time constant is zero). -/
noncomputable def calculateAttackOrRelease (inverseSampleRate value : ℝ) : ℝ :=
  if value = 0 then 0
  else Real.rpow (1 / Real.exp 1) (inverseSampleRate / value)

/-- Member state of `CompressorExpanderAudioProcessor` used by
`processBlock`: the seven smoothed parameters and the float members
mutated by the gain computer. -/
structure State where
  paramThreshold : PluginParameterModel.LinearSmoothedValue ℝ
  paramRatio : PluginParameterModel.LinearSmoothedValue ℝ
  paramAttack : PluginParameterModel.LinearSmoothedValue ℝ
  paramRelease : PluginParameterModel.LinearSmoothedValue ℝ
  paramMakeupGain : PluginParameterModel.LinearSmoothedValue ℝ
  paramBypass : PluginParameterModel.LinearSmoothedValue ℝ
  paramMode : PluginParameterModel.LinearSmoothedValue ℝ
  inputLevel : ℝ
  ylPrev : ℝ
  xg : ℝ
  yg : ℝ
  xl : ℝ
  yl : ℝ
  control : ℝ
  inverseSampleRate : ℝ

/-- Mono mixdown `mixedDownInput`: the input channels averaged with gain
`1 / numInputChannels`. -/
noncomputable def mixedDownInput (numInputChannels : ℕ)
    (buffer : ℕ → ℕ → ℝ) : ℕ → ℝ :=
  fun i => ∑ ch ∈ Finset.range numInputChannels,
    buffer ch i * (1 / (numInputChannels : ℝ))

/-- Body of the per-sample loop of `processBlock` at sample `i`: advance
the smoothed parameters, run the level detector and gain computer
(expander or compressor branch), and scale sample `i` of every input
channel by the control gain. -/
noncomputable def processSample (numInputChannels : ℕ) (mixedDown : ℕ → ℝ)
    (i : ℕ) (sb : State × (ℕ → ℕ → ℝ)) : State × (ℕ → ℕ → ℝ) :=
  let s := sb.1
  let buffer := sb.2
  let expander := s.paramMode.targetValue ≠ 0
  let rT := PluginParameterModel.getNextValue s.paramThreshold
  let rR := PluginParameterModel.getNextValue s.paramRatio
  let rA := PluginParameterModel.getNextValue s.paramAttack
  let rRel := PluginParameterModel.getNextValue s.paramRelease
  let rM := PluginParameterModel.getNextValue s.paramMakeupGain
  let T := rT.1
  let R := rR.1
  let alphaA := calculateAttackOrRelease s.inverseSampleRate rA.1
  let alphaR := calculateAttackOrRelease s.inverseSampleRate rRel.1
  let makeupGain := rM.1
  let inputSquared := mixedDown i ^ 2
  let inputLevel :=
    if expander then 0.9999 * s.inputLevel + (1 - 0.9999) * inputSquared
    else inputSquared
  let xg :=
    if inputLevel ≤ 1 / 1000000 then -60 else 10 * Real.logb 10 inputLevel
  let yg :=
    if expander then (if xg > T then xg else T + (xg - T) * R)
    else (if xg < T then xg else T + (xg - T) / R)
  let xl := xg - yg
  let yl :=
    if expander then
      (if xl < s.ylPrev then alphaA * s.ylPrev + (1 - alphaA) * xl
       else alphaR * s.ylPrev + (1 - alphaR) * xl)
    else
      (if xl > s.ylPrev then alphaA * s.ylPrev + (1 - alphaA) * xl
       else alphaR * s.ylPrev + (1 - alphaR) * xl)
  let control := Real.rpow 10 ((makeupGain - yl) * 0.05)
  let s1 : State :=
    { s with
      paramThreshold := rT.2, paramRatio := rR.2, paramAttack := rA.2,
      paramRelease := rRel.2, paramMakeupGain := rM.2,
      inputLevel := inputLevel, ylPrev := yl, xg := xg, yg := yg,
      xl := xl, yl := yl, control := control }
  let buffer1 := fun ch j =>
    if ch < numInputChannels ∧ j = i then buffer ch j * control
    else buffer ch j
  (s1, buffer1)

/-- First `n` iterations of the per-sample loop. -/
noncomputable def processLoop (numInputChannels : ℕ) (mixedDown : ℕ → ℝ) :
    ℕ → State × (ℕ → ℕ → ℝ) → State × (ℕ → ℕ → ℝ)
  | 0, sb => sb
  | n + 1, sb =>
      processSample numInputChannels mixedDown n
        (processLoop numInputChannels mixedDown n sb)

/-- `CompressorExpanderAudioProcessor::processBlock`: return immediately
when the bypass parameter's target is set (C++ `(bool)` conversion:
nonzero); otherwise mix down, run the per-sample loop over the block, and
clear the output channels beyond the input channel count. -/
noncomputable def processBlock (numInputChannels numOutputChannels
    numSamples : ℕ) (s : State) (buffer : ℕ → ℕ → ℝ) :
    State × (ℕ → ℕ → ℝ) :=
  if s.paramBypass.targetValue ≠ 0 then (s, buffer)
  else
    let mixedDown := mixedDownInput numInputChannels buffer
    let sb := processLoop numInputChannels mixedDown numSamples (s, buffer)
    (sb.1, fun ch j =>
      if numInputChannels ≤ ch ∧ ch < numOutputChannels ∧ j < numSamples
      then 0 else sb.2 ch j)

end CompressorExpander

/-- C9: when the bypass target is nonzero, `processBlock` returns before
touching anything: the gain-computer state (including `inputLevel` and
`ylPrev`) and every sample of every channel of the buffer — the extra
output channels included, which are then not cleared — are unchanged. -/
theorem compressor_processBlock_bypass (numInputChannels numOutputChannels
    numSamples : ℕ) (s : CompressorExpander.State) (buffer : ℕ → ℕ → ℝ)
    (h : s.paramBypass.targetValue ≠ 0) :
    (CompressorExpander.processBlock numInputChannels numOutputChannels
        numSamples s buffer).1 = s ∧
      ∀ ch i, (CompressorExpander.processBlock numInputChannels
        numOutputChannels numSamples s buffer).2 ch i = buffer ch i := by
  rw [CompressorExpander.processBlock, if_pos h]
  exact ⟨rfl, fun _ _ => rfl⟩

/-- C9 witness: a concrete bypassed state (bypass target `1`) and a
concrete stereo-in/quad-out buffer pass through unchanged. -/
theorem compressor_processBlock_bypass_witness :
    ((⟨⟨0, 0, 0, 0, 0⟩, ⟨0, 0, 0, 0, 0⟩, ⟨0, 0, 0, 0, 0⟩, ⟨0, 0, 0, 0, 0⟩,
        ⟨0, 0, 0, 0, 0⟩, ⟨0, 1, 0, 0, 0⟩, ⟨0, 0, 0, 0, 0⟩,
        0, 0, 0, 0, 0, 0, 1, 1⟩ :
      CompressorExpander.State).paramBypass.targetValue ≠ 0) ∧
      ∀ ch i, (CompressorExpander.processBlock 2 4 8
          ⟨⟨0, 0, 0, 0, 0⟩, ⟨0, 0, 0, 0, 0⟩, ⟨0, 0, 0, 0, 0⟩, ⟨0, 0, 0, 0, 0⟩,
            ⟨0, 0, 0, 0, 0⟩, ⟨0, 1, 0, 0, 0⟩, ⟨0, 0, 0, 0, 0⟩,
            0, 0, 0, 0, 0, 0, 1, 1⟩
          (fun ch i => (ch : ℝ) + (i : ℝ))).2 ch i = (ch : ℝ) + (i : ℝ) := by
  refine ⟨by norm_num, ?_⟩
  exact (compressor_processBlock_bypass 2 4 8 _ _ (by norm_num)).2

namespace STFT

/-- Forward transform of `juce::dsp::FFT::perform (…, false)`: the
unnormalised discrete Fourier transform. -/
noncomputable def dft (N : ℕ) (v : ℕ → ℂ) (k : ℕ) : ℂ :=
  ∑ j ∈ Finset.range N,
    v j * Complex.exp (-(2 * (Real.pi : ℂ) * Complex.I) * (j : ℂ) * (k : ℂ) / (N : ℂ))

/-- Inverse transform of `juce::dsp::FFT::perform (…, true)`: the inverse
DFT including the `1/N` normalisation, so that a forward/inverse round
trip reproduces the input. -/
noncomputable def idft (N : ℕ) (v : ℕ → ℂ) (j : ℕ) : ℂ :=
  (∑ k ∈ Finset.range N,
    v k * Complex.exp ((2 * (Real.pi : ℂ) * Complex.I) * (j : ℂ) * (k : ℂ) / (N : ℂ))) /
    (N : ℂ)

theorem sum_rootOfUnity (N : ℕ) (hN : 0 < N) (a b : ℕ) (ha : a < N)
    (hb : b < N) :
    ∑ k ∈ Finset.range N,
        Complex.exp ((2 * (Real.pi : ℂ) * Complex.I) * ((a : ℂ) - (b : ℂ)) * (k : ℂ) / (N : ℂ)) =
      if a = b then (N : ℂ) else 0 := by
  by_cases hab : a = b
  · subst hab
    rw [if_pos rfl]
    have hterm : ∀ k ∈ Finset.range N,
        Complex.exp ((2 * (Real.pi : ℂ) * Complex.I) * ((a : ℂ) - (a : ℂ)) * (k : ℂ) / (N : ℂ)) =
          1 := by
      intro k _
      rw [sub_self]
      norm_num [Complex.exp_zero]
    rw [Finset.sum_congr rfl hterm]
    simp
  · rw [if_neg hab]
    set z : ℂ :=
      Complex.exp ((2 * (Real.pi : ℂ) * Complex.I) * ((a : ℂ) - (b : ℂ)) / (N : ℂ)) with hz
    have hNne : (N : ℂ) ≠ 0 := Nat.cast_ne_zero.mpr hN.ne'
    have hterm : ∀ k ∈ Finset.range N,
        Complex.exp ((2 * (Real.pi : ℂ) * Complex.I) * ((a : ℂ) - (b : ℂ)) * (k : ℂ) / (N : ℂ)) =
          z ^ k := by
      intro k _
      rw [hz, ← Complex.exp_nat_mul]
      congr 1
      field_simp
      ring
    rw [Finset.sum_congr rfl hterm]
    have hz1 : z ≠ 1 := by
      intro hcontra
      rw [hz] at hcontra
      obtain ⟨n, hn⟩ := Complex.exp_eq_one_iff.mp hcontra
      have h2pi : (2 * (Real.pi : ℂ) * Complex.I) ≠ 0 := by
        simp [Complex.ext_iff, Real.pi_ne_zero]
      have hcast : (a : ℂ) - (b : ℂ) = (n : ℂ) * (N : ℂ) := by
        field_simp at hn
        have h4 : (2 * (Real.pi : ℂ) * Complex.I) * ((a : ℂ) - (b : ℂ)) =
            (2 * (Real.pi : ℂ) * Complex.I) * ((n : ℂ) * (N : ℂ)) := by
          rw [hn]
          ring
        exact mul_left_cancel₀ h2pi h4
      have hint : (a : ℤ) - (b : ℤ) = n * (N : ℤ) := by
        have h3 : (((a : ℤ) - (b : ℤ) : ℤ) : ℂ) = (((n * (N : ℤ)) : ℤ) : ℂ) := by
          push_cast
          push_cast at hcast
          linear_combination hcast
        exact_mod_cast h3
      have hb1 : -(N : ℤ) < (a : ℤ) - (b : ℤ) := by omega
      have hb2 : (a : ℤ) - (b : ℤ) < (N : ℤ) := by omega
      have hb3 : (a : ℤ) - (b : ℤ) ≠ 0 := by omega
      have hNZ : (0 : ℤ) < (N : ℤ) := by exact_mod_cast hN
      rcases lt_trichotomy n 0 with hn0 | hn0 | hn0
      · have : n * (N : ℤ) ≤ -(N : ℤ) := by nlinarith
        omega
      · rw [hn0] at hint
        simp at hint
        omega
      · have : (N : ℤ) ≤ n * (N : ℤ) := by nlinarith
        omega
    rw [geom_sum_eq hz1]
    have hzN : z ^ N = 1 := by
      rw [hz, ← Complex.exp_nat_mul]
      have harg : (N : ℂ) * (2 * (Real.pi : ℂ) * Complex.I * ((a : ℂ) - (b : ℂ)) / (N : ℂ)) =
          (((a : ℤ) - (b : ℤ) : ℤ) : ℂ) * (2 * (Real.pi : ℂ) * Complex.I) := by
        push_cast
        field_simp
        ring
      rw [harg, Complex.exp_int_mul_two_pi_mul_I]
    rw [hzN, sub_self, zero_div]

theorem idft_dft (N : ℕ) (hN : 0 < N) (v : ℕ → ℂ) (j : ℕ) (hj : j < N) :
    idft N (dft N v) j = v j := by
  have hNne : (N : ℂ) ≠ 0 := Nat.cast_ne_zero.mpr hN.ne'
  rw [idft]
  have hsum : ∑ k ∈ Finset.range N,
      dft N v k *
        Complex.exp ((2 * (Real.pi : ℂ) * Complex.I) * (j : ℂ) * (k : ℂ) / (N : ℂ)) =
      ∑ m ∈ Finset.range N, v m * (if j = m then (N : ℂ) else 0) := by
    have hstep : ∀ k ∈ Finset.range N,
        dft N v k *
          Complex.exp ((2 * (Real.pi : ℂ) * Complex.I) * (j : ℂ) * (k : ℂ) / (N : ℂ)) =
        ∑ m ∈ Finset.range N,
          v m *
            Complex.exp ((2 * (Real.pi : ℂ) * Complex.I) * ((j : ℂ) - (m : ℂ)) * (k : ℂ) / (N : ℂ)) := by
      intro k _
      rw [dft, Finset.sum_mul]
      apply Finset.sum_congr rfl
      intro m _
      rw [mul_assoc, ← Complex.exp_add]
      congr 2
      field_simp
      ring
    rw [Finset.sum_congr rfl hstep, Finset.sum_comm]
    apply Finset.sum_congr rfl
    intro m hm
    rw [← Finset.mul_sum,
      sum_rootOfUnity N hN j m hj (Finset.mem_range.mp hm)]
  rw [hsum]
  have hsingle : ∑ m ∈ Finset.range N, v m * (if j = m then (N : ℂ) else 0) =
      v j * (N : ℂ) := by
    rw [Finset.sum_eq_single j]
    · rw [if_pos rfl]
    · intro m _ hm
      rw [if_neg (Ne.symm hm), mul_zero]
    · intro hj2
      exact absurd (Finset.mem_range.mpr hj) hj2
  rw [hsingle, mul_div_assoc, div_self hNne, mul_one]

theorem dft_real_conj (N : ℕ) (v : ℕ → ℝ) (i : ℕ) (hiN : i ≤ N) :
    dft N (fun j => ((v j : ℝ) : ℂ)) (N - i) =
      (starRingEnd ℂ) (dft N (fun j => ((v j : ℝ) : ℂ)) i) := by
  rw [dft, dft, map_sum]
  apply Finset.sum_congr rfl
  intro j _
  rw [map_mul, Complex.conj_ofReal, ← Complex.exp_conj]
  congr 1
  have hconj : (starRingEnd ℂ)
      (-(2 * (Real.pi : ℂ) * Complex.I) * (j : ℂ) * (i : ℂ) / (N : ℂ)) =
      (2 * (Real.pi : ℂ) * Complex.I) * (j : ℂ) * (i : ℂ) / (N : ℂ) := by
    simp only [map_div₀, map_mul, map_neg, Complex.conj_I,
      Complex.conj_ofReal, Complex.conj_natCast, map_ofNat]
    ring
  rw [hconj]
  by_cases hNz : N = 0
  · subst hNz
    simp at hiN
    subst hiN
    norm_num
  · have hNne : (N : ℂ) ≠ 0 := Nat.cast_ne_zero.mpr hNz
    have hsub : ((N - i : ℕ) : ℂ) = (N : ℂ) - (i : ℂ) := by
      push_cast [Nat.cast_sub hiN]
      ring
    rw [hsub]
    have harg : -(2 * (Real.pi : ℂ) * Complex.I) * (j : ℂ) * ((N : ℂ) - (i : ℂ)) / (N : ℂ) =
        (2 * (Real.pi : ℂ) * Complex.I) * (j : ℂ) * (i : ℂ) / (N : ℂ) +
          ((-(j : ℤ) : ℤ) : ℂ) * (2 * (Real.pi : ℂ) * Complex.I) := by
      push_cast
      field_simp
      ring
    rw [harg, Complex.exp_add, Complex.exp_int_mul_two_pi_mul_I, mul_one]

end STFT

namespace STFT

/-- Bin value recomposed from magnitude and phase, as the pass-through
`STFT::modification` writes it (`magnitude·cosf(phase)` into the real
part, `magnitude·sinf(phase)` into the imaginary part). -/
noncomputable def polarRecompose (z : ℂ) : ℂ :=
  ((Complex.abs z * Real.cos (Complex.arg z) : ℝ) : ℂ) +
    ((Complex.abs z * Real.sin (Complex.arg z) : ℝ) : ℂ) * Complex.I

/-- Mirrored bin written at `fftSize - index`: same magnitude, negated
phase (`sinf (-phase)`). -/
noncomputable def polarRecomposeConj (z : ℂ) : ℂ :=
  ((Complex.abs z * Real.cos (Complex.arg z) : ℝ) : ℂ) +
    ((Complex.abs z * Real.sin (-Complex.arg z) : ℝ) : ℂ) * Complex.I

theorem polarRecompose_eq (z : ℂ) : polarRecompose z = z := by
  rw [polarRecompose, Complex.ofReal_mul, Complex.ofReal_mul,
    Complex.ofReal_cos, Complex.ofReal_sin]
  have h := Complex.abs_mul_cos_add_sin_mul_I z
  linear_combination h

theorem polarRecomposeConj_eq (z : ℂ) :
    polarRecomposeConj z = (starRingEnd ℂ) z := by
  have h1 : (starRingEnd ℂ) z = (starRingEnd ℂ) (polarRecompose z) := by
    rw [polarRecompose_eq]
  rw [h1, polarRecompose, polarRecomposeConj, map_add, map_mul,
    Complex.conj_ofReal, Complex.conj_ofReal, Complex.conj_I, Real.sin_neg]
  push_cast
  ring

/-- In-place loop of the pass-through `STFT::modification` between the two
transforms: iteration `index` recomputes bin `index` from its
magnitude/phase and, for `0 < index < fftSize/2`, also overwrites the
mirrored bin `fftSize - index` with the conjugate value (Hermitian
symmetry of a real signal); `modificationLoop n` runs the first `n`
iterations. -/
noncomputable def modificationLoop (N : ℕ) : ℕ → (ℕ → ℂ) → (ℕ → ℂ)
  | 0, buf => buf
  | n + 1, buf =>
      if 0 < n ∧ n < N / 2 then
        Function.update
          (Function.update (modificationLoop N n buf) n
            (polarRecompose (modificationLoop N n buf n)))
          (N - n) (polarRecomposeConj (modificationLoop N n buf n))
      else
        Function.update (modificationLoop N n buf) n
          (polarRecompose (modificationLoop N n buf n))

/-- Frequency-domain action of the pass-through `modification`: the
in-place loop run for `index = 0 .. fftSize/2`. -/
noncomputable def passThroughSpectral (N : ℕ) (buf : ℕ → ℂ) : ℕ → ℂ :=
  modificationLoop N (N / 2 + 1) buf

theorem modificationLoop_eq_self (N : ℕ) (buf : ℕ → ℂ)
    (hherm : ∀ m : ℕ, 0 < m → m < N / 2 →
      buf (N - m) = (starRingEnd ℂ) (buf m)) :
    ∀ n, modificationLoop N n buf = buf := by
  intro n
  induction n with
  | zero => rfl
  | succ k ih =>
      rw [modificationLoop, ih]
      have hup : Function.update buf k (polarRecompose (buf k)) = buf := by
        rw [polarRecompose_eq]
        exact Function.update_eq_self k buf
      by_cases hc : 0 < k ∧ k < N / 2
      · rw [if_pos hc, hup, polarRecomposeConj_eq, ← hherm k hc.1 hc.2]
        exact Function.update_eq_self _ _
      · rw [if_neg hc, hup]

/-- Full pass-through `STFT::modification` on the (real) windowed
time-domain frame: forward FFT, per-bin polar recomputation with Hermitian
mirroring, inverse FFT; `synthesis` reads back the real part. -/
noncomputable def modification (N : ℕ) (td : ℕ → ℝ) : ℕ → ℝ :=
  fun i =>
    (idft N (passThroughSpectral N (dft N (fun j => ((td j : ℝ) : ℂ)))) i).re

/-- In exact arithmetic the pass-through modification is the identity on
the time-domain frame. -/
theorem modification_id (N : ℕ) (hN : 0 < N) (td : ℕ → ℝ) (i : ℕ)
    (hi : i < N) : modification N td i = td i := by
  have hloop := modificationLoop_eq_self N
    (dft N (fun j => ((td j : ℝ) : ℂ)))
    (fun m hm0 hm2 => dft_real_conj N td m (by omega)) (N / 2 + 1)
  rw [modification, passThroughSpectral, hloop, idft_dft N hN _ i hi]
  exact Complex.ofReal_re _

end STFT

namespace STFT

/-- Overlap-add loop of `STFT::synthesis`: iteration `index` adds
`timeDomainBuffer[index].real() * windowScaleFactor` into the output ring
at `(outputBufferWritePosition + index) % fftSize` (`synthesisLoop n` runs
the first `n` of the `fftSize` iterations). -/
noncomputable def synthesisLoop (N W : ℕ) (scale : ℝ) (v : ℕ → ℝ) :
    ℕ → (ℕ → ℝ) → (ℕ → ℝ)
  | 0, buf => buf
  | n + 1, buf =>
      Function.update (synthesisLoop N W scale v n buf) ((W + n) % N)
        (synthesisLoop N W scale v n buf ((W + n) % N) + v n * scale)

theorem synthesisLoop_apply (N W : ℕ) (scale : ℝ) (v : ℕ → ℝ) :
    ∀ n (buf : ℕ → ℝ) (q : ℕ),
      synthesisLoop N W scale v n buf q =
        buf q +
          ∑ i ∈ Finset.range n, if (W + i) % N = q then v i * scale else 0 := by
  intro n
  induction n with
  | zero =>
      intro buf q
      simp [synthesisLoop]
  | succ k ih =>
      intro buf q
      rw [synthesisLoop]
      by_cases hq : (W + k) % N = q
      · rw [hq, Function.update_same, ih buf q, Finset.sum_range_succ,
          if_pos hq]
        ring
      · rw [Function.update_noteq (fun h => hq h.symm), ih buf q,
          Finset.sum_range_succ, if_neg hq, add_zero]

theorem synthesisLoop_add (N W : ℕ) (hN : 0 < N) (scale : ℝ) (v : ℕ → ℝ)
    (buf : ℕ → ℝ) (d : ℕ) (hd : d < N) :
    synthesisLoop N W scale v N buf ((W + d) % N) =
      buf ((W + d) % N) + v d * scale := by
  rw [synthesisLoop_apply]
  congr 1
  rw [Finset.sum_eq_single d]
  · rw [if_pos rfl]
  · intro i hi hne
    rw [if_neg]
    intro hcontra
    have h3 : i ≡ d [MOD N] := Nat.ModEq.add_left_cancel' W hcontra
    have h4 : i % N = d % N := h3
    rw [Nat.mod_eq_of_lt (Finset.mem_range.mp hi), Nat.mod_eq_of_lt hd] at h4
    exact hne h4
  · intro hd2
    exact absurd (Finset.mem_range.mpr hd) hd2

/-- Per-channel engine state of `STFT`: the two sample rings and the four
cursors copied into the `current…` locals by `processBlock`. -/
structure EngineState where
  inputBuffer : ℕ → ℝ
  outputBuffer : ℕ → ℝ
  inputBufferWritePosition : ℕ
  outputBufferWritePosition : ℕ
  outputBufferReadPosition : ℕ
  samplesSinceLastFFT : ℕ

/-- State right after `updateParameters (fftSize, overlap, windowType)`:
`updateFftSize` clears both rings and zeroes every cursor, then
`updateHopSize` moves the output write cursor to
`hopSize % outputBufferLength`. -/
def initialEngineState (N hopSize : ℕ) : EngineState :=
  ⟨fun _ => 0, fun _ => 0, 0, hopSize % N, 0, 0⟩

/-- Analysis frame of `STFT::analysis`: `timeDomainBuffer[index] =
fftWindow[index] * inputBuffer[(writePos + index) % fftSize]` (oldest
sample first, imaginary parts zero). -/
noncomputable def analysisFrame (N : ℕ) (w : ℕ → ℝ) (inBuf : ℕ → ℝ)
    (inPos : ℕ) : ℕ → ℝ :=
  fun index => w index * inBuf ((inPos + index) % N)

/-- One iteration of the per-sample loop of `STFT::processBlock` for one
channel: store the input sample and advance the input cursor; emit the
output ring value under the read cursor, zero that slot and advance the
read cursor; then, once `hopSize` samples have accumulated, run
analysis → modification → synthesis and advance the output write cursor
by `hopSize` (reset to `0` at the buffer end).  Returns the new state and
the sample written back into the block. -/
noncomputable def processSampleStep (N hopSize : ℕ) (w : ℕ → ℝ) (scale : ℝ)
    (s : EngineState) (x : ℝ) : EngineState × ℝ :=
  let inBuf := Function.update s.inputBuffer s.inputBufferWritePosition x
  let inPos := if N ≤ s.inputBufferWritePosition + 1 then 0
    else s.inputBufferWritePosition + 1
  let out := s.outputBuffer s.outputBufferReadPosition
  let outBuf0 := Function.update s.outputBuffer s.outputBufferReadPosition 0
  let outReadPos := if N ≤ s.outputBufferReadPosition + 1 then 0
    else s.outputBufferReadPosition + 1
  let counter := s.samplesSinceLastFFT + 1
  if hopSize ≤ counter then
    let td := analysisFrame N w inBuf inPos
    let mtd := modification N td
    let outBuf1 := synthesisLoop N s.outputBufferWritePosition scale mtd N outBuf0
    let outWritePos := if N ≤ s.outputBufferWritePosition + hopSize then 0
      else s.outputBufferWritePosition + hopSize
    (⟨inBuf, outBuf1, inPos, outWritePos, outReadPos, 0⟩, out)
  else
    (⟨inBuf, outBuf0, inPos, s.outputBufferWritePosition, outReadPos,
      counter⟩, out)

/-- Engine state after feeding the first `t` samples of `x` through the
per-sample loop (block boundaries are irrelevant: `processBlock` copies
the cursors into locals per channel and writes them back after the loop,
so consecutive blocks compose). -/
noncomputable def engineRun (N hopSize : ℕ) (w : ℕ → ℝ) (scale : ℝ)
    (x : ℕ → ℝ) : ℕ → EngineState
  | 0 => initialEngineState N hopSize
  | t + 1 =>
      (processSampleStep N hopSize w scale (engineRun N hopSize w scale x t)
        (x t)).1

/-- Output sample written back into `channelData[t]` by `processBlock`
(the input sample is read before the slot is overwritten). -/
noncomputable def engineOut (N hopSize : ℕ) (w : ℕ → ℝ) (scale : ℝ)
    (x : ℕ → ℝ) (t : ℕ) : ℝ :=
  (processSampleStep N hopSize w scale (engineRun N hopSize w scale x t)
    (x t)).2

/-- Input signal delayed by `N` samples (zero before sample `N`). -/
def delayedInput (x : ℕ → ℝ) (N t : ℕ) : ℝ := if t < N then 0 else x (t - N)

/-- Contribution of the `k`-th analysis/synthesis frame (the one fired
while processing sample `k·hopSize - 1`) to output sample `u`: the frame
covers output samples `k·hopSize .. k·hopSize + fftSize - 1`, and at
sample `u` it deposits the window-weighted input sample `x (u - fftSize)`
scaled by `windowScaleFactor`. -/
noncomputable def frameContribution (N hopSize : ℕ) (w : ℕ → ℝ)
    (scale : ℝ) (x : ℕ → ℝ) (k u : ℕ) : ℝ :=
  if k * hopSize ≤ u ∧ u < k * hopSize + N then
    w (u - k * hopSize) * delayedInput x N u * scale
  else 0

/-- Loop invariant of the engine after `t` samples: all four cursors are
the reductions of `t` (the output write cursor leads by one hop), the
input ring holds the last `fftSize` samples, and each output slot holds
the partial overlap-add of all frames fired so far for the output sample
it will emit next. -/
noncomputable def EngineInvariant (N hopSize : ℕ) (w : ℕ → ℝ) (scale : ℝ)
    (x : ℕ → ℝ) (t : ℕ) (s : EngineState) : Prop :=
  s.inputBufferWritePosition = t % N ∧
  s.outputBufferReadPosition = t % N ∧
  s.samplesSinceLastFFT = t % hopSize ∧
  s.outputBufferWritePosition = (t / hopSize * hopSize + hopSize) % N ∧
  (∀ i, i < N → s.inputBuffer ((t + i) % N) = delayedInput x N (t + i)) ∧
  (∀ d, d < N → s.outputBuffer ((t + d) % N) =
    ∑ k ∈ Finset.range (t / hopSize),
      frameContribution N hopSize w scale x (k + 1) (t + d))

end STFT

namespace STFT

theorem wrapIncrementZero_eq_mod (M L p : ℕ) (hM : 0 < M) (hp : p = L % M) :
    (if M ≤ p + 1 then 0 else p + 1) = (L + 1) % M := by
  have hmod : (L + 1) % M = (L % M + 1) % M := by
    conv_lhs => rw [← Nat.mod_add_mod]
  have hlt : L % M < M := Nat.mod_lt _ hM
  subst hp
  by_cases h : L % M + 1 = M
  · rw [if_pos (le_of_eq h.symm), hmod, h, Nat.mod_self]
  · have hlt2 : L % M + 1 < M := lt_of_le_of_ne hlt h
    rw [if_neg (not_le.mpr hlt2), hmod, Nat.mod_eq_of_lt hlt2]

theorem succ_div_of_mod_ne (t hopSize : ℕ) (h : (t + 1) % hopSize ≠ 0) :
    (t + 1) / hopSize = t / hopSize := by
  rw [Nat.succ_div, if_neg, add_zero]
  intro hdvd
  exact h ((Nat.mod_eq_zero_of_dvd hdvd))

theorem mul_hop_mod (hopSize ov : ℕ) (hhop : 0 < hopSize) (hov : 0 < ov)
    (j : ℕ) : (j * hopSize) % (hopSize * ov) = j % ov * hopSize := by
  conv_lhs => rw [← Nat.div_add_mod j ov]
  have hsplit : (ov * (j / ov) + j % ov) * hopSize =
      j % ov * hopSize + j / ov * (hopSize * ov) := by ring
  rw [hsplit, Nat.add_mul_mod_self_right]
  apply Nat.mod_eq_of_lt
  have hlt : j % ov < ov := Nat.mod_lt _ hov
  calc j % ov * hopSize < ov * hopSize :=
        (Nat.mul_lt_mul_right hhop).mpr hlt
    _ = hopSize * ov := Nat.mul_comm ov hopSize

theorem hopAdvance (N hopSize ov : ℕ) (hfact : hopSize * ov = N)
    (hhop : 0 < hopSize) (hov : 0 < ov) (j : ℕ) :
    (if N ≤ (j * hopSize) % N + hopSize then 0
     else (j * hopSize) % N + hopSize) = ((j + 1) * hopSize) % N := by
  subst hfact
  rw [mul_hop_mod hopSize ov hhop hov j, mul_hop_mod hopSize ov hhop hov (j + 1)]
  have hm : j % ov < ov := Nat.mod_lt _ hov
  have hsucc : (j + 1) % ov = (j % ov + 1) % ov := by
    conv_lhs => rw [← Nat.mod_add_mod]
  by_cases h : j % ov + 1 = ov
  · have hcond : hopSize * ov ≤ j % ov * hopSize + hopSize := by
      have : j % ov * hopSize + hopSize = (j % ov + 1) * hopSize := by ring
      rw [this, h, Nat.mul_comm]
    rw [if_pos hcond, hsucc, h, Nat.mod_self, Nat.zero_mul]
  · have hlt2 : j % ov + 1 < ov := lt_of_le_of_ne hm h
    have hcond : ¬(hopSize * ov ≤ j % ov * hopSize + hopSize) := by
      push_neg
      have h2 : j % ov * hopSize + hopSize = (j % ov + 1) * hopSize := by ring
      rw [h2]
      calc (j % ov + 1) * hopSize < ov * hopSize :=
            (Nat.mul_lt_mul_right hhop).mpr hlt2
        _ = hopSize * ov := Nat.mul_comm ov hopSize
    rw [if_neg hcond, hsucc, Nat.mod_eq_of_lt hlt2]
    ring

theorem inputBuffer_step (N : ℕ) (hN : 0 < N) (x : ℕ → ℝ) (t : ℕ)
    (inBuf : ℕ → ℝ)
    (h5 : ∀ i, i < N → inBuf ((t + i) % N) = delayedInput x N (t + i)) :
    ∀ i, i < N →
      Function.update inBuf (t % N) (x t) ((t + 1 + i) % N) =
        delayedInput x N (t + 1 + i) := by
  intro i hi
  by_cases hlast : i = N - 1
  · have hslot : (t + 1 + i) % N = t % N := by
      have h7 : t + 1 + i = t + N := by omega
      rw [h7, Nat.add_mod_right]
    rw [hslot, Function.update_same]
    have h8 : t + 1 + i = t + N := by omega
    rw [h8, delayedInput, if_neg (by omega)]
    congr 1
    omega
  · have h7 : t + 1 + i = t + (i + 1) := by omega
    have hne : (t + 1 + i) % N ≠ t % N := by
      rw [h7]
      exact add_mod_ne_mod t (i + 1) N (by omega) (by omega)
    rw [Function.update_noteq hne, h7]
    exact h5 (i + 1) (by omega)

theorem outputBuffer_zero_step (N hopSize : ℕ) (hN : 0 < N)
    (hhop : 0 < hopSize) (w : ℕ → ℝ) (scale : ℝ) (x : ℕ → ℝ) (t : ℕ)
    (outBuf : ℕ → ℝ)
    (h6 : ∀ d, d < N → outBuf ((t + d) % N) =
      ∑ k ∈ Finset.range (t / hopSize),
        frameContribution N hopSize w scale x (k + 1) (t + d)) :
    ∀ d, d < N →
      Function.update outBuf (t % N) 0 ((t + 1 + d) % N) =
        ∑ k ∈ Finset.range (t / hopSize),
          frameContribution N hopSize w scale x (k + 1) (t + 1 + d) := by
  intro d hd
  by_cases hlast : d = N - 1
  · have hslot : (t + 1 + d) % N = t % N := by
      have h7 : t + 1 + d = t + N := by omega
      rw [h7, Nat.add_mod_right]
    rw [hslot, Function.update_same]
    symm
    apply Finset.sum_eq_zero
    intro k hk
    rw [frameContribution, if_neg]
    push_neg
    intro _
    have hk1 : (k + 1) * hopSize ≤ t / hopSize * hopSize :=
      Nat.mul_le_mul_right _ (Finset.mem_range.mp hk)
    have hk2 : t / hopSize * hopSize ≤ t := Nat.div_mul_le_self t hopSize
    omega
  · have h7 : t + 1 + d = t + (d + 1) := by omega
    have hne : (t + 1 + d) % N ≠ t % N := by
      rw [h7]
      exact add_mod_ne_mod t (d + 1) N (by omega) (by omega)
    rw [Function.update_noteq hne, h7]
    exact h6 (d + 1) (by omega)

end STFT

namespace STFT

theorem engineInvariant_step (N hopSize overlap : ℕ) (hhop : 0 < hopSize)
    (hov : 0 < overlap) (hfact : hopSize * overlap = N)
    (w : ℕ → ℝ) (scale : ℝ) (x : ℕ → ℝ) (t : ℕ) (s : EngineState)
    (hinv : EngineInvariant N hopSize w scale x t s) :
    EngineInvariant N hopSize w scale x (t + 1)
        (processSampleStep N hopSize w scale s (x t)).1 ∧
      (processSampleStep N hopSize w scale s (x t)).2 =
        ∑ k ∈ Finset.range (t / hopSize),
          frameContribution N hopSize w scale x (k + 1) t := by
  have hN : 0 < N := hfact ▸ Nat.mul_pos hhop hov
  obtain ⟨h1, h2, h3, h4, h5, h6⟩ := hinv
  have hinstep := inputBuffer_step N hN x t s.inputBuffer h5
  have houtzero := outputBuffer_zero_step N hopSize hN hhop w scale x t
    s.outputBuffer h6
  have hout : s.outputBuffer s.outputBufferReadPosition =
      ∑ k ∈ Finset.range (t / hopSize),
        frameContribution N hopSize w scale x (k + 1) t := by
    have h7 := h6 0 hN
    simp only [add_zero] at h7
    rw [h2]
    exact h7
  have hip1 : (if N ≤ t % N + 1 then 0 else t % N + 1) = (t + 1) % N :=
    wrapIncrementZero_eq_mod N t _ hN rfl
  have hmodlt : t % hopSize < hopSize := Nat.mod_lt _ hhop
  have hmle : t % hopSize ≤ t := Nat.mod_le t hopSize
  by_cases hcond : hopSize ≤ t % hopSize + 1
  · -- a frame fires during this sample
    have heq : t % hopSize + 1 = hopSize := by omega
    have hmod0 : (t + 1) % hopSize = 0 := by
      calc (t + 1) % hopSize = (t % hopSize + 1) % hopSize := by
            conv_lhs => rw [← Nat.mod_add_mod]
        _ = 0 := by rw [heq, Nat.mod_self]
    have hdvd1 : hopSize ∣ t + 1 := Nat.dvd_of_mod_eq_zero hmod0
    set Q := (t + 1) / hopSize with hQdef
    have hQmul : Q * hopSize = t + 1 := Nat.div_mul_cancel hdvd1
    have hQ1 : 1 ≤ Q := by
      rcases Nat.eq_zero_or_pos Q with h0 | h0
      · rw [h0, Nat.zero_mul] at hQmul
        omega
      · exact h0
    have hsub : (Q - 1) * hopSize = Q * hopSize - hopSize :=
      Nat.sub_one_mul Q hopSize
    have htdiv : t / hopSize = Q - 1 := by
      have ht : t = hopSize - 1 + hopSize * (Q - 1) := by
        have h8 : hopSize * (Q - 1) = (Q - 1) * hopSize := Nat.mul_comm _ _
        omega
      rw [ht, Nat.add_mul_div_left _ _ hhop,
        Nat.div_eq_of_lt (by omega), Nat.zero_add]
    have hQh : hopSize ≤ Q * hopSize := Nat.le_mul_of_pos_left hopSize hQ1
    have hW : s.outputBufferWritePosition = (Q * hopSize) % N := by
      rw [h4, htdiv]
      congr 1
      omega
    have hQsucc : Q = t / hopSize + 1 := by omega
    have hcond2 : hopSize ≤ s.samplesSinceLastFFT + 1 := by
      rw [h3]
      omega
    simp only [processSampleStep, EngineInvariant]
    rw [if_pos hcond2]
    dsimp only
    refine ⟨⟨?_, ?_, ?_, ?_, ?_, ?_⟩, ?_⟩
    · rw [h1]
      exact hip1
    · rw [h2]
      exact hip1
    · exact hmod0.symm
    · rw [hW, hopAdvance N hopSize overlap hfact hhop hov Q, ← hQdef]
      congr 1
      ring
    · intro i hi
      rw [h1]
      exact hinstep i hi
    · intro d hd
      rw [h1, h2, hip1, hW, hQmul]
      have hback : (t + 1 + d) % N = ((t + 1) % N + d) % N :=
        (Nat.mod_add_mod _ _ _).symm
      rw [hback, synthesisLoop_add N ((t + 1) % N) hN scale _ _ d hd, ← hback]
      rw [houtzero d hd]
      have hmtd : modification N
          (analysisFrame N w
            (Function.update s.inputBuffer (t % N) (x t)) ((t + 1) % N)) d =
          w d * delayedInput x N (t + 1 + d) := by
        rw [modification_id N hN _ d hd, analysisFrame, Nat.mod_add_mod]
        rw [hinstep d hd]
      rw [hmtd, ← hQdef, hQsucc, Finset.sum_range_succ]
      have hcsucc : t / hopSize + 1 = Q := hQsucc.symm
      rw [hcsucc]
      have hcontrib : frameContribution N hopSize w scale x Q (t + 1 + d) =
          w d * delayedInput x N (t + 1 + d) * scale := by
        rw [frameContribution, if_pos]
        · have hda : t + 1 + d - Q * hopSize = d := by omega
          rw [hda]
        · omega
      rw [hcontrib]
    · exact hout
  · -- no frame during this sample
    push_neg at hcond
    have hmodsucc : (t + 1) % hopSize = t % hopSize + 1 := by
      calc (t + 1) % hopSize = (t % hopSize + 1) % hopSize := by
            conv_lhs => rw [← Nat.mod_add_mod]
        _ = t % hopSize + 1 := Nat.mod_eq_of_lt hcond
    have hmodne : (t + 1) % hopSize ≠ 0 := by omega
    have hdiveq : (t + 1) / hopSize = t / hopSize :=
      succ_div_of_mod_ne t hopSize hmodne
    have hcond2 : ¬hopSize ≤ s.samplesSinceLastFFT + 1 := by
      rw [h3]
      omega
    simp only [processSampleStep, EngineInvariant]
    rw [if_neg hcond2]
    dsimp only
    refine ⟨⟨?_, ?_, ?_, ?_, ?_, ?_⟩, ?_⟩
    · rw [h1]
      exact hip1
    · rw [h2]
      exact hip1
    · rw [h3]
      omega
    · rw [h4, hdiveq]
    · intro i hi
      rw [h1]
      exact hinstep i hi
    · intro d hd
      rw [h2, hdiveq]
      exact houtzero d hd
    · exact hout

end STFT

namespace STFT

theorem engineInvariant_holds (N hopSize overlap : ℕ) (hhop : 0 < hopSize)
    (hov : 0 < overlap) (hfact : hopSize * overlap = N) (w : ℕ → ℝ)
    (scale : ℝ) (x : ℕ → ℝ) :
    ∀ t, EngineInvariant N hopSize w scale x t
      (engineRun N hopSize w scale x t) := by
  intro t
  induction t with
  | zero =>
      refine ⟨rfl, rfl, rfl, ?_, ?_, ?_⟩
      · show hopSize % N = (0 / hopSize * hopSize + hopSize) % N
        rw [Nat.zero_div, Nat.zero_mul, Nat.zero_add]
      · intro i hi
        show (0 : ℝ) = delayedInput x N (0 + i)
        rw [delayedInput, if_pos (by omega)]
      · intro d hd
        show (0 : ℝ) = ∑ k ∈ Finset.range (0 / hopSize),
          frameContribution N hopSize w scale x (k + 1) (0 + d)
        rw [Nat.zero_div, Finset.range_zero, Finset.sum_empty]
  | succ n ih =>
      exact (engineInvariant_step N hopSize overlap hhop hov hfact w scale x
        n _ ih).1

theorem engineOut_eq_frameSum (N hopSize overlap : ℕ) (hhop : 0 < hopSize)
    (hov : 0 < overlap) (hfact : hopSize * overlap = N) (w : ℕ → ℝ)
    (scale : ℝ) (x : ℕ → ℝ) (t : ℕ) :
    engineOut N hopSize w scale x t =
      ∑ k ∈ Finset.range (t / hopSize),
        frameContribution N hopSize w scale x (k + 1) t :=
  (engineInvariant_step N hopSize overlap hhop hov hfact w scale x t _
    (engineInvariant_holds N hopSize overlap hhop hov hfact w scale x t)).2

theorem frameSum_eq (N hopSize overlap : ℕ) (hhop : 0 < hopSize)
    (hov : 0 < overlap) (hfact : hopSize * overlap = N) (w : ℕ → ℝ)
    (scale : ℝ) (x : ℕ → ℝ) (t : ℕ) :
    ∑ k ∈ Finset.range (t / hopSize),
        frameContribution N hopSize w scale x (k + 1) t =
      scale * (∑ j ∈ Finset.range overlap, w (t % hopSize + j * hopSize)) *
        delayedInput x N t := by
  have hN : 0 < N := hfact ▸ Nat.mul_pos hhop hov
  by_cases ht : t < N
  · have hz : delayedInput x N t = 0 := by rw [delayedInput, if_pos ht]
    rw [hz, mul_zero]
    apply Finset.sum_eq_zero
    intro k _
    rw [frameContribution]
    by_cases hc : (k + 1) * hopSize ≤ t ∧ t < (k + 1) * hopSize + N
    · rw [if_pos hc, hz, mul_zero, zero_mul]
    · rw [if_neg hc]
  · push_neg at ht
    set K := t / hopSize with hK
    set r := t % hopSize with hr
    have hdm : hopSize * K + r = t := Nat.div_add_mod t hopSize
    have hrlt : r < hopSize := Nat.mod_lt _ hhop
    have hoK : overlap ≤ K := by
      have h1 : overlap = N / hopSize := by
        rw [← hfact, Nat.mul_div_cancel_left _ hhop]
      rw [h1, hK]
      exact Nat.div_le_div_right ht
    have h7 : overlap * hopSize = N := by
      rw [Nat.mul_comm]
      exact hfact
    have hreflect : ∑ k ∈ Finset.range K,
        frameContribution N hopSize w scale x (k + 1) t =
        ∑ j ∈ Finset.range K,
          frameContribution N hopSize w scale x (K - j) t := by
      rw [← Finset.sum_range_reflect
        (fun k => frameContribution N hopSize w scale x (k + 1) t) K]
      apply Finset.sum_congr rfl
      intro j hj
      have hjK : j < K := Finset.mem_range.mp hj
      congr 1
      omega
    have hsubset : ∑ j ∈ Finset.range K,
        frameContribution N hopSize w scale x (K - j) t =
        ∑ j ∈ Finset.range overlap,
          frameContribution N hopSize w scale x (K - j) t := by
      symm
      apply Finset.sum_subset (Finset.range_subset.mpr hoK)
      intro j hjK hjov
      have hjo : overlap ≤ j := not_lt.mp (fun h => hjov (Finset.mem_range.mpr h))
      have hjK2 : j < K := Finset.mem_range.mp hjK
      have h3 : (K - j) * hopSize = K * hopSize - j * hopSize :=
        Nat.sub_mul K j hopSize
      have h4 : overlap * hopSize ≤ j * hopSize :=
        Nat.mul_le_mul_right _ hjo
      have h6 : j * hopSize ≤ K * hopSize :=
        Nat.mul_le_mul_right _ (le_of_lt hjK2)
      have h8 : hopSize * K = K * hopSize := Nat.mul_comm _ _
      rw [frameContribution, if_neg]
      push_neg
      intro _
      omega
    have heval : ∀ j ∈ Finset.range overlap,
        frameContribution N hopSize w scale x (K - j) t =
          w (r + j * hopSize) * delayedInput x N t * scale := by
      intro j hj
      have hjov : j < overlap := Finset.mem_range.mp hj
      have hjK : j < K := lt_of_lt_of_le hjov hoK
      have h3 : (K - j) * hopSize = K * hopSize - j * hopSize :=
        Nat.sub_mul K j hopSize
      have h6 : j * hopSize ≤ K * hopSize :=
        Nat.mul_le_mul_right _ (le_of_lt hjK)
      have h4 : j * hopSize + hopSize ≤ overlap * hopSize := by
        have h5 := Nat.mul_le_mul_right hopSize (Nat.succ_le_of_lt hjov)
        calc j * hopSize + hopSize = (j + 1) * hopSize := by ring
          _ ≤ overlap * hopSize := h5
      have h8 : hopSize * K = K * hopSize := Nat.mul_comm _ _
      rw [frameContribution, if_pos]
      · have harg : t - (K - j) * hopSize = r + j * hopSize := by omega
        rw [harg]
      · constructor
        · omega
        · omega
    rw [hreflect, hsubset, Finset.sum_congr rfl heval, ← Finset.sum_mul,
      ← Finset.sum_mul]
    ring

/-- Net effect of the engine with the pass-through modification: every
output sample is the input delayed by exactly `fftSize` samples, scaled by
`windowScaleFactor` times the overlap-sum of the window table at phase
`t % hopSize`. -/
theorem engineOut_characterisation (N hopSize overlap : ℕ)
    (hhop : 0 < hopSize) (hov : 0 < overlap) (hfact : hopSize * overlap = N)
    (w : ℕ → ℝ) (scale : ℝ) (x : ℕ → ℝ) (t : ℕ) :
    engineOut N hopSize w scale x t =
      scale * (∑ j ∈ Finset.range overlap, w (t % hopSize + j * hopSize)) *
        delayedInput x N t := by
  rw [engineOut_eq_frameSum N hopSize overlap hhop hov hfact w scale x t,
    frameSum_eq N hopSize overlap hhop hov hfact w scale x t]

end STFT

namespace STFT

theorem windowTable_rect (N i : ℕ) (hi : i < N) :
    windowTable WindowType.rectangular N i = 1 := by
  rw [windowTable, if_pos hi]

theorem windowSum_rect (N : ℕ) :
    windowSum N (windowTable WindowType.rectangular N) = (N : ℝ) := by
  rw [windowSum,
    Finset.sum_congr rfl
      (fun s hs => windowTable_rect N s (Finset.mem_range.mp hs))]
  simp

end STFT

/-- C1 (amended): for every configuration with power-of-two `fftSize`,
nonzero overlap dividing `fftSize` (`hopSize = fftSize / overlap`), any
supported window and any input sequence fed through `processBlock`, the
emitted output equals the input delayed by exactly `fftSize` samples — not
`fftSize - hopSize` — scaled by `windowScaleFactor` times the overlap-sum
of the window table at phase `t % hopSize`; for the rectangular window
that factor is exactly `1`, so the output is exactly the delayed input and
the first `fftSize` output samples are zero. -/
theorem stft_passThrough_roundTrip (m fftSize overlap : ℕ)
    (windowType : STFT.WindowType) (x : ℕ → ℝ) (t : ℕ)
    (hpow : fftSize = 2 ^ m) (hov : 0 < overlap) (hdvd : overlap ∣ fftSize) :
    STFT.engineOut fftSize (fftSize / overlap)
        (STFT.windowTable windowType fftSize)
        (STFT.windowScaleFactorOf overlap fftSize
          (STFT.windowTable windowType fftSize)) x t =
      STFT.windowScaleFactorOf overlap fftSize
          (STFT.windowTable windowType fftSize) *
        (∑ j ∈ Finset.range overlap,
          STFT.windowTable windowType fftSize
            (t % (fftSize / overlap) + j * (fftSize / overlap))) *
        STFT.delayedInput x fftSize t ∧
      (windowType = STFT.WindowType.rectangular →
        STFT.engineOut fftSize (fftSize / overlap)
            (STFT.windowTable windowType fftSize)
            (STFT.windowScaleFactorOf overlap fftSize
              (STFT.windowTable windowType fftSize)) x t =
          STFT.delayedInput x fftSize t ∧
        (t < fftSize →
          STFT.engineOut fftSize (fftSize / overlap)
            (STFT.windowTable windowType fftSize)
            (STFT.windowScaleFactorOf overlap fftSize
              (STFT.windowTable windowType fftSize)) x t = 0)) := by
  have hNpos : 0 < fftSize := by
    rw [hpow]
    positivity
  have hfact : fftSize / overlap * overlap = fftSize := Nat.div_mul_cancel hdvd
  have hhop : 0 < fftSize / overlap :=
    Nat.div_pos (Nat.le_of_dvd hNpos hdvd) hov
  have hmain := STFT.engineOut_characterisation fftSize (fftSize / overlap)
    overlap hhop hov hfact (STFT.windowTable windowType fftSize)
    (STFT.windowScaleFactorOf overlap fftSize
      (STFT.windowTable windowType fftSize)) x t
  refine ⟨hmain, ?_⟩
  intro hrect
  subst hrect
  have hNne : ((fftSize : ℝ)) ≠ 0 := Nat.cast_ne_zero.mpr hNpos.ne'
  have hovne : ((overlap : ℝ)) ≠ 0 := Nat.cast_ne_zero.mpr hov.ne'
  have hscale : STFT.windowScaleFactorOf overlap fftSize
      (STFT.windowTable STFT.WindowType.rectangular fftSize) =
      1 / (overlap : ℝ) := by
    rw [STFT.windowScaleFactorOf,
      if_pos ⟨hov.ne', by rw [STFT.windowSum_rect]; exact hNne⟩,
      STFT.windowSum_rect]
    field_simp
    ring
  have hidx : ∀ j, j < overlap →
      t % (fftSize / overlap) + j * (fftSize / overlap) < fftSize := by
    intro j hj
    have hrlt : t % (fftSize / overlap) < fftSize / overlap :=
      Nat.mod_lt _ hhop
    have h5 : (j + 1) * (fftSize / overlap) ≤ overlap * (fftSize / overlap) :=
      Nat.mul_le_mul_right _ (by omega)
    have h6 : overlap * (fftSize / overlap) = fftSize := by
      rw [Nat.mul_comm]
      exact hfact
    have h9 : (j + 1) * (fftSize / overlap) =
        j * (fftSize / overlap) + fftSize / overlap := by ring
    omega
  have hS : ∑ j ∈ Finset.range overlap,
      STFT.windowTable STFT.WindowType.rectangular fftSize
        (t % (fftSize / overlap) + j * (fftSize / overlap)) = (overlap : ℝ) := by
    rw [Finset.sum_congr rfl
      (fun j hj => STFT.windowTable_rect fftSize _
        (hidx j (Finset.mem_range.mp hj)))]
    simp
  have hexact : STFT.engineOut fftSize (fftSize / overlap)
      (STFT.windowTable STFT.WindowType.rectangular fftSize)
      (STFT.windowScaleFactorOf overlap fftSize
        (STFT.windowTable STFT.WindowType.rectangular fftSize)) x t =
      STFT.delayedInput x fftSize t := by
    rw [hmain, hscale, hS]
    field_simp
  refine ⟨hexact, ?_⟩
  intro htN
  rw [hexact, STFT.delayedInput, if_pos htN]

/-- C1 counterexample: `fftSize = 4`, `overlap = 2` (`hopSize = 2`),
rectangular window, unit impulse input.  The engine emits the impulse at
sample `4 = fftSize` with value `1`, whereas the claimed delay of
`fftSize - hopSize = 2` predicts the impulse value `x 2 = 0` there: the
output is not the input delayed by `fftSize - hopSize`. -/
theorem stft_passThrough_delay_counterexample :
    STFT.engineOut 4 2 (STFT.windowTable STFT.WindowType.rectangular 4)
        (STFT.windowScaleFactorOf 2 4
          (STFT.windowTable STFT.WindowType.rectangular 4))
        (fun u => if u = 0 then 1 else 0) 4 = 1 ∧
      (fun u => if u = 0 then (1 : ℝ) else 0) (4 - (4 - 2)) = 0 := by
  constructor
  · rw [STFT.engineOut_characterisation 4 2 2 (by norm_num) (by norm_num)
      (by norm_num) _ _ _ 4]
    have hscale : STFT.windowScaleFactorOf 2 4
        (STFT.windowTable STFT.WindowType.rectangular 4) = 1 / 2 := by
      rw [STFT.windowScaleFactorOf,
        if_pos ⟨by norm_num, by rw [STFT.windowSum_rect]; norm_num⟩,
        STFT.windowSum_rect]
      norm_num
    have hS : ∑ j ∈ Finset.range 2,
        STFT.windowTable STFT.WindowType.rectangular 4 (4 % 2 + j * 2) =
        (2 : ℝ) := by
      rw [Finset.sum_range_succ, Finset.sum_range_succ, Finset.sum_range_zero]
      rw [STFT.windowTable_rect 4 _ (by norm_num),
        STFT.windowTable_rect 4 _ (by norm_num)]
      norm_num
    rw [hscale, hS, STFT.delayedInput, if_neg (by norm_num)]
    norm_num
  · norm_num

/-- C1 witness: at `fftSize = 4 = 2²`, `overlap = 2`, rectangular window,
impulse input and `t = 4`, the hypotheses hold and the amended theorem
yields the exactly-delayed output. -/
theorem stft_passThrough_roundTrip_witness :
    ((4 : ℕ) = 2 ^ 2 ∧ (0 : ℕ) < 2 ∧ 2 ∣ 4) ∧
      STFT.engineOut 4 (4 / 2)
          (STFT.windowTable STFT.WindowType.rectangular 4)
          (STFT.windowScaleFactorOf 2 4
            (STFT.windowTable STFT.WindowType.rectangular 4))
          (fun u => if u = 0 then 1 else 0) 4 =
        STFT.delayedInput (fun u => if u = 0 then 1 else 0) 4 4 := by
  refine ⟨⟨by norm_num, by norm_num, by norm_num⟩, ?_⟩
  exact ((stft_passThrough_roundTrip 2 4 2 STFT.WindowType.rectangular
    (fun u => if u = 0 then 1 else 0) 4 (by norm_num) (by norm_num)
    (by norm_num)).2 rfl).1
